import Mathlib

/-!
# Verification of the SCISSORS projection/similarity core

A shallow embedding of `scissors/__init__.py` (class `SCISSORS`): the
eigen-pair selection of `get_projection_matrix`, the embedding step
`get_vectors`, the similarity step `vector_tanimotos` (including its
NaN/infinity validity checks, modeled over an IEEE-style extended value
type), the Tanimoto-to-inner-product transform, and kernel centering.

Real-valued numpy arrays are modeled over a linear ordered field `F`
(instantiated at `ℚ` for executable witnesses and at `ℝ` for the concrete
numeric scenario); `np.sqrt` is passed as an explicit function parameter
`sqrtA` so that the definitions stay computable, and is instantiated with
`Real.sqrt` where a concrete eigendecomposition is supplied.  The
eigendecomposition `np.linalg.eigh` itself is an external LAPACK routine:
the pipeline is therefore parameterized by its output, a list of
(eigenvalue, eigenvector-column) pairs.  `np.argsort` (an unstable sort
followed by index reversal) is modeled by `List.insertionSort` with the
descending comparison: any correct sort is a faithful model since numpy's
tie order is unspecified.  All Lean functions are pure, so "the input
matrix is not mutated in place" holds by construction throughout.
-/

namespace Scissors

variable {F : Type} [LinearOrderedField F] {V : Type}

/-- Descending comparison on eigen-pairs by eigenvalue
(`np.argsort(e_vals)[::-1]`). -/
def eigGE (a b : F × V) : Prop := b.1 ≤ a.1

instance eigGE.decRel : DecidableRel (eigGE (F := F) (V := V)) :=
  fun a b => inferInstanceAs (Decidable (b.1 ≤ a.1))

/-- Descending comparison on eigen-pairs by absolute eigenvalue
(`np.argsort(np.fabs(e_vals))[::-1]`). -/
def eigAbsGE (a b : F × V) : Prop := |b.1| ≤ |a.1|

instance eigAbsGE.decRel : DecidableRel (eigAbsGE (F := F) (V := V)) :=
  fun a b => inferInstanceAs (Decidable (|b.1| ≤ |a.1|))

/-- The eigen-pairs reordered as `e_vals[sort]` / `e_vecs[:, sort]` in
`SCISSORS.get_projection_matrix`: descending by absolute eigenvalue when
`allow_imaginary` is set, descending by eigenvalue otherwise. -/
def sortedPairs (allowImaginary : Bool) (l : List (F × V)) : List (F × V) :=
  if allowImaginary then l.insertionSort eigAbsGE else l.insertionSort eigGE

/-- The retained dimensionality `dim` of `SCISSORS.get_projection_matrix`:
`np.count_nonzero(e_vals != 0)` when `allow_imaginary` is set,
`np.count_nonzero(e_vals > 0)` otherwise (counted on the unsorted
eigenvalues, as in the source). -/
def eigDim (allowImaginary : Bool) (evals : List F) : ℕ :=
  if allowImaginary then evals.countP (fun x => decide (x ≠ 0))
  else evals.countP (fun x => decide (0 < x))

/-- The eigen-pairs retained by `SCISSORS.get_projection_matrix`:
`e_vals[sort][:dim]` paired with `e_vecs[:, sort][:, :dim]`. -/
def retainedPairs (allowImaginary : Bool) (l : List (F × V)) : List (F × V) :=
  (sortedPairs allowImaginary l).take (eigDim allowImaginary (l.map Prod.fst))

/-- Row `i` of the projection matrix `p = D * V.T` of
`SCISSORS.get_projection_matrix`, where
`D = np.diag(np.reciprocal(np.sqrt(np.fabs(e_vals))))`: the row for the
retained pair `(λ, v)` is `(sqrt |λ|)⁻¹ • v`. -/
def projectionRow (sqrtA : F → F) (pr : F × (Fin n → F)) : Fin n → F :=
  fun j => (sqrtA |pr.1|)⁻¹ * pr.2 j

/-- The projection matrix of `SCISSORS.get_projection_matrix`, as its list
of rows (shape `d × n`). -/
def projectionMatrix (sqrtA : F → F) (allowImaginary : Bool)
    (l : List (F × (Fin n → F))) : List (Fin n → F) :=
  (retainedPairs allowImaginary l).map (projectionRow sqrtA)

/-- `SCISSORS.get_max_dim`: the number of rows of the projection matrix. -/
def getMaxDim (sqrtA : F → F) (allowImaginary : Bool)
    (l : List (F × (Fin n → F))) : ℕ :=
  (projectionMatrix sqrtA allowImaginary l).length

/-- Python list/array slicing `xs[:k]` for an `int` `k`: a prefix of `xs`
(for negative `k`, all but the last `|k|` elements). -/
def pySlice {α : Type} (k : ℤ) (xs : List α) : List α :=
  if 0 ≤ k then xs.take k.toNat else xs.take (xs.length - k.natAbs)

/-- `SCISSORS.get_vectors`: `vectors = (P * ip.T)` (shape `d × m`), then
`vectors[:max_dim]`, then transposed.  Object `i`'s embedded vector is
returned as the list of its coordinates along the retained dimensions. -/
def getVectors (sqrtA : F → F) (allowImaginary : Bool)
    (l : List (F × (Fin n → F))) (ip : Matrix (Fin m) (Fin n) F)
    (maxDim : Option ℤ) : Fin m → List F :=
  fun i =>
    let row := (projectionMatrix sqrtA allowImaginary l).map
      (fun prow => ∑ j, prow j * ip i j)
    match maxDim with
    | none => row
    | some k => pySlice k row

/-- Dot product of two embedded vectors (an entry of
`np.asmatrix(a) * np.asmatrix(b).T`). -/
def dotList (xs ys : List F) : F :=
  ((xs.zip ys).map (fun pr => pr.1 * pr.2)).sum

/-- `_get_squared_magnitudes` of `SCISSORS.vector_tanimotos` applied to one
row: a diagonal entry of `np.inner(x, x)`. -/
def squaredMagnitude (xs : List F) : F := dotList xs xs

/-- `SCISSORS.vector_tanimotos` over exact field values: cross inner
products `AB = a * b.T`, overlaps defaulted to squared magnitudes when
absent, then the masked divide `AB / (a_overlap + b_overlap - AB)` filled
with `0` where the denominator is exactly zero.  (Over a field there are
no NaN or infinite values, so the `masked_invalid` assertions of the
source always pass; they are modeled separately over `FloatVal`.) -/
def vector_tanimotos (a : Fin p → List F) (b : Fin q → List F)
    (aOverlap : Option (Fin p → F)) (bOverlap : Option (Fin q → F)) :
    Matrix (Fin p) (Fin q) F :=
  let aOv := aOverlap.getD (fun i => squaredMagnitude (a i))
  let bOv := bOverlap.getD (fun j => squaredMagnitude (b j))
  Matrix.of fun i j =>
    let ab := dotList (a i) (b j)
    let den := aOv i + bOv j - ab
    if den = 0 then 0 else ab / den

/-- `SCISSORS.get_tanimotos`: embed the library inner products and take all
vs. all vector Tanimotos, passing the caller's self-overlaps (or `none`)
for both sides. -/
def get_tanimotos (sqrtA : F → F) (allowImaginary : Bool)
    (l : List (F × (Fin n → F))) (ip : Matrix (Fin m) (Fin n) F)
    (selfOverlap : Option (Fin m → F)) (maxDim : Option ℤ) :
    Matrix (Fin m) (Fin m) F :=
  let v := getVectors sqrtA allowImaginary l ip maxDim
  vector_tanimotos v v selfOverlap selfOverlap

/-- `SCISSORS.get_inner_products_from_tanimotos`: the elementwise transform
`(2 * tanimotos) / (1 + tanimotos)`. -/
def get_inner_products_from_tanimotos (t : Matrix (Fin m) (Fin k) F) :
    Matrix (Fin m) (Fin k) F :=
  Matrix.of fun i j => (2 * t i j) / (1 + t i j)

/-- `SCISSORS._center_kernel_matrix`: with `norm` the matrix with every
entry `1 / m.shape[0]`, return `m - norm*m - m*norm + norm*m*norm`. -/
def center_kernel_matrix (K : Matrix (Fin nn) (Fin nn) F) :
    Matrix (Fin nn) (Fin nn) F :=
  let norm : Matrix (Fin nn) (Fin nn) F := Matrix.of fun _ _ => (nn : F)⁻¹
  K - norm * K - K * norm + norm * K * norm

/-! ## IEEE-style extended values

`SCISSORS.vector_tanimotos` validates its intermediate arrays with
`np.ma.masked_invalid` assertions: no entry of `AB`, of the broadcast
`a_overlap`, or of the broadcast `b_overlap` may be NaN or infinite.  To
state that behavior the floating-point carriers are modeled by `FloatVal`:
a finite field value, NaN, `+inf` or `-inf`, with IEEE-754 propagation
rules for addition and multiplication (exact finite arithmetic). -/

/-- A floating-point value: finite (exact), NaN, or a signed infinity. -/
inductive FloatVal (F : Type) where
  | fin (x : F)
  | nan
  | pinf
  | ninf
deriving DecidableEq

/-- Whether a floating-point value is neither NaN nor infinite
(`np.ma.masked_invalid` leaves it unmasked). -/
def FloatVal.isFinite : FloatVal F → Bool
  | .fin _ => true
  | _ => false

/-- IEEE-754 addition on extended values (finite part exact). -/
def FloatVal.add : FloatVal F → FloatVal F → FloatVal F
  | .nan, _ => .nan
  | _, .nan => .nan
  | .pinf, .ninf => .nan
  | .ninf, .pinf => .nan
  | .pinf, _ => .pinf
  | _, .pinf => .pinf
  | .ninf, _ => .ninf
  | _, .ninf => .ninf
  | .fin x, .fin y => .fin (x + y)

/-- IEEE-754 multiplication on extended values (finite part exact). -/
def FloatVal.mul : FloatVal F → FloatVal F → FloatVal F
  | .nan, _ => .nan
  | _, .nan => .nan
  | .pinf, .pinf => .pinf
  | .pinf, .ninf => .ninf
  | .ninf, .pinf => .ninf
  | .ninf, .ninf => .pinf
  | .pinf, .fin x => if x = 0 then .nan else if 0 < x then .pinf else .ninf
  | .fin x, .pinf => if x = 0 then .nan else if 0 < x then .pinf else .ninf
  | .ninf, .fin x => if x = 0 then .nan else if 0 < x then .ninf else .pinf
  | .fin x, .ninf => if x = 0 then .nan else if 0 < x then .ninf else .pinf
  | .fin x, .fin y => .fin (x * y)

/-- IEEE-754 subtraction on extended values. -/
def FloatVal.sub (a b : FloatVal F) : FloatVal F :=
  a.add (b.mul (.fin (-1)))

/-- IEEE-754 division on extended values (finite part exact; division of a
finite value by zero is handled by the masked-divide policy before this is
reached, and yields NaN or a signed infinity here). -/
def FloatVal.div : FloatVal F → FloatVal F → FloatVal F
  | .nan, _ => .nan
  | _, .nan => .nan
  | .pinf, .pinf => .nan
  | .pinf, .ninf => .nan
  | .ninf, .pinf => .nan
  | .ninf, .ninf => .nan
  | .pinf, .fin x => if 0 ≤ x then .pinf else .ninf
  | .ninf, .fin x => if 0 ≤ x then .ninf else .pinf
  | .fin _, .pinf => .fin 0
  | .fin _, .ninf => .fin 0
  | .fin x, .fin y =>
    if y = 0 then (if x = 0 then .nan else if 0 < x then .pinf else .ninf)
    else .fin (x / y)

/-- Dot product of rows of extended values: an entry of the matrix product
`np.asmatrix(a) * np.asmatrix(b).T`. -/
def dotFV (xs ys : List (FloatVal F)) : FloatVal F :=
  ((xs.zip ys).map (fun pr => pr.1.mul pr.2)).foldr FloatVal.add (.fin 0)

/-- The error raised when a `masked_invalid` assertion of
`SCISSORS.vector_tanimotos` fails (a NaN or infinity in `AB` or a
broadcast overlap matrix). -/
inductive NumericalError where
  | numericalError
deriving DecidableEq

/-- `SCISSORS.vector_tanimotos` over extended values, with the source's
validity checks made explicit: compute `AB = a * b.T`, broadcast the
overlaps to `p × q` via `np.meshgrid`, assert (in source order) that no
entry of `AB`, of the broadcast `a_overlap`, or of the broadcast
`b_overlap` is NaN or infinite, and only then perform the masked divide
`AB / (a_overlap + b_overlap - AB)` filled with `0` where the denominator
is exactly zero. -/
def vector_tanimotos_checked (a : Fin p → List (FloatVal F))
    (b : Fin q → List (FloatVal F)) (aOv : Fin p → FloatVal F)
    (bOv : Fin q → FloatVal F) :
    Except NumericalError (Matrix (Fin p) (Fin q) (FloatVal F)) :=
  let ab : Matrix (Fin p) (Fin q) (FloatVal F) :=
    Matrix.of fun i j => dotFV (a i) (b j)
  if ¬ ∀ (i : Fin p) (j : Fin q), (ab i j).isFinite then
    .error .numericalError
  else if ¬ ∀ (i : Fin p) (_j : Fin q), (aOv i).isFinite then
    .error .numericalError
  else if ¬ ∀ (_i : Fin p) (j : Fin q), (bOv j).isFinite then
    .error .numericalError
  else
    .ok (Matrix.of fun i j =>
      let den := ((aOv i).add (bOv j)).sub (ab i j)
      if den = .fin 0 then .fin 0 else (ab i j).div den)

/-! ## Eigen-pair selection (claims C1, C5) -/

instance eigGE.isTotal : IsTotal (F × V) (eigGE (F := F) (V := V)) :=
  ⟨fun a b => (le_total a.1 b.1).symm⟩

instance eigGE.isTrans : IsTrans (F × V) (eigGE (F := F) (V := V)) :=
  ⟨fun _ _ _ hab hbc => le_trans hbc hab⟩

instance eigAbsGE.isTotal : IsTotal (F × V) (eigAbsGE (F := F) (V := V)) :=
  ⟨fun a b => (le_total |a.1| |b.1|).symm⟩

instance eigAbsGE.isTrans : IsTrans (F × V) (eigAbsGE (F := F) (V := V)) :=
  ⟨fun _ _ _ hab hbc => le_trans hbc hab⟩

/-- In a list sorted by `r`, taking the first `countP p` elements yields
exactly the elements satisfying `p`, provided `p` is upward closed along
`r` (an element related to one satisfying `p` satisfies `p` too). -/
theorem take_countP_of_sorted {α : Type} {r : α → α → Prop} {p : α → Bool}
    (hp : ∀ a b, r a b → p b = true → p a = true) :
    ∀ l : List α, l.Sorted r → l.take (l.countP p) = l.filter p := by
  intro l
  induction l with
  | nil => intro _; rfl
  | cons a l ih =>
    intro h
    rcases List.sorted_cons.mp h with ⟨ha, hl⟩
    by_cases hpa : p a = true
    · rw [List.countP_cons_of_pos _ _ hpa, List.filter_cons_of_pos hpa,
        List.take_succ_cons, ih hl]
    · have hz : l.countP p = 0 := by
        rw [List.countP_eq_zero]
        intro b hb hpb
        exact hpa (hp a b (ha b hb) hpb)
      have hf : l.filter p = [] := by
        rw [List.filter_eq_nil_iff]
        intro b hb hpb
        exact hpa (hp a b (ha b hb) hpb)
      rw [List.countP_cons_of_neg _ _ hpa, hz, List.filter_cons_of_neg hpa,
        hf, List.take_zero]

/-- The retained pairs in standard mode are the positive-eigenvalue pairs
of the descending-sorted list. -/
theorem retainedPairs_false_eq (l : List (F × V)) :
    retainedPairs false l =
      (l.insertionSort eigGE).filter (fun pr => decide (0 < pr.1)) := by
  have hcount : (l.map Prod.fst).countP (fun x => decide (0 < x)) =
      (l.insertionSort eigGE).countP (fun pr => decide (0 < pr.1)) := by
    rw [List.countP_map, ((List.perm_insertionSort eigGE l).countP_eq _)]
    rfl
  have hp : ∀ a b : F × V, eigGE a b →
      decide (0 < b.1) = true → decide (0 < a.1) = true := by
    intro a b hab hb
    simp only [decide_eq_true_eq] at hb ⊢
    exact lt_of_lt_of_le hb hab
  rw [retainedPairs, sortedPairs, eigDim, if_neg (by simp), if_neg (by simp),
    hcount, take_countP_of_sorted hp _ (List.sorted_insertionSort eigGE l)]

/-- The retained pairs in imaginary-allowed mode are the
nonzero-eigenvalue pairs of the list sorted descending by absolute
eigenvalue. -/
theorem retainedPairs_true_eq (l : List (F × V)) :
    retainedPairs true l =
      (l.insertionSort eigAbsGE).filter (fun pr => decide (pr.1 ≠ 0)) := by
  have hcount : (l.map Prod.fst).countP (fun x => decide (x ≠ 0)) =
      (l.insertionSort eigAbsGE).countP (fun pr => decide (pr.1 ≠ 0)) := by
    rw [List.countP_map, ((List.perm_insertionSort eigAbsGE l).countP_eq _)]
    rfl
  have hp : ∀ a b : F × V, eigAbsGE a b →
      decide (b.1 ≠ 0) = true → decide (a.1 ≠ 0) = true := by
    intro a b hab hb
    have hab' : |b.1| ≤ |a.1| := hab
    simp only [decide_eq_true_eq] at hb ⊢
    intro hz
    rw [hz, abs_zero] at hab'
    exact hb (abs_eq_zero.mp (le_antisymm hab' (abs_nonneg _)))
  rw [retainedPairs, sortedPairs, eigDim, if_pos rfl, if_pos rfl,
    hcount, take_countP_of_sorted hp _ (List.sorted_insertionSort eigAbsGE l)]

/-- C1: the eigen-pair selection of `get_projection_matrix` retains, with
`allow_imaginary = False`, exactly the eigen-pairs with eigenvalue
strictly greater than zero, sorted by eigenvalue descending, and, with
`allow_imaginary = True`, exactly the eigen-pairs with nonzero
eigenvalue, sorted by absolute eigenvalue descending; in both modes the
retained dimensionality equals the count of eigenvalues satisfying the
retention criterion. -/
theorem c1_eigenpair_selection (l : List (F × V)) :
    ((retainedPairs false l).Perm (l.filter (fun pr => decide (0 < pr.1)))
      ∧ (retainedPairs false l).Sorted eigGE
      ∧ (retainedPairs false l).length =
          l.countP (fun pr => decide (0 < pr.1)))
    ∧ ((retainedPairs true l).Perm (l.filter (fun pr => decide (pr.1 ≠ 0)))
      ∧ (retainedPairs true l).Sorted eigAbsGE
      ∧ (retainedPairs true l).length =
          l.countP (fun pr => decide (pr.1 ≠ 0))) := by
  constructor
  · rw [retainedPairs_false_eq]
    refine ⟨(List.perm_insertionSort eigGE l).filter _, ?_, ?_⟩
    · exact List.Pairwise.sublist (List.filter_sublist _)
        (List.sorted_insertionSort eigGE l)
    · rw [← List.countP_eq_length_filter,
        (List.perm_insertionSort eigGE l).countP_eq]
  · rw [retainedPairs_true_eq]
    refine ⟨(List.perm_insertionSort eigAbsGE l).filter _, ?_, ?_⟩
    · exact List.Pairwise.sublist (List.filter_sublist _)
        (List.sorted_insertionSort eigAbsGE l)
    · rw [← List.countP_eq_length_filter,
        (List.perm_insertionSort eigAbsGE l).countP_eq]

/-- C5: every eigenvalue retained by the selection step is nonzero, so
`D = diag(1/sqrt(|eigval|))` never divides by zero: the
`SingularBasisError` condition (a retained pair with eigenvalue exactly
zero) is unreachable in both modes. -/
theorem c5_retained_eigenvalue_nonzero (ai : Bool) (l : List (F × V))
    (x : F × V) (hx : x ∈ retainedPairs ai l) : x.1 ≠ 0 := by
  cases ai with
  | false =>
    rw [retainedPairs_false_eq] at hx
    have := (List.mem_filter.mp hx).2
    simp only [decide_eq_true_eq] at this
    exact ne_of_gt this
  | true =>
    rw [retainedPairs_true_eq] at hx
    have := (List.mem_filter.mp hx).2
    simpa using this

/-- Witness for C5 at a concrete input: the selection on the eigenvalue
list `[2]` (standard mode) retains the pair `(2, 0)`, whose eigenvalue is
nonzero. -/
theorem c5_witness :
    (((2 : ℚ), (0 : ℚ)) ∈
        (retainedPairs false [((2 : ℚ), (0 : ℚ))] : List (ℚ × ℚ)))
      ∧ ((2 : ℚ), (0 : ℚ)).1 ≠ 0 := by
  refine ⟨?_, c5_retained_eigenvalue_nonzero false [((2 : ℚ), (0 : ℚ))]
    ((2 : ℚ), (0 : ℚ)) ?_⟩ <;> decide

/-! ## Zero-dimensional edge case (claim C6) -/

/-- C6: when no eigenvalue satisfies the retention criterion (`d = 0`),
`get_max_dim` returns `0` and `get_vectors` returns a zero-width embedded
vector for every library object and every `max_dim` argument; both
computations are total (no error is raised). -/
theorem c6_zero_dim (sqrtA : F → F) (ai : Bool) (l : List (F × (Fin n → F)))
    (h : eigDim ai (l.map Prod.fst) = 0) (ip : Matrix (Fin m) (Fin n) F)
    (maxDim : Option ℤ) :
    getMaxDim sqrtA ai l = 0
      ∧ ∀ i, getVectors sqrtA ai l ip maxDim i = [] := by
  have hr : retainedPairs ai l = [] := by
    rw [retainedPairs, h, List.take_zero]
  refine ⟨?_, ?_⟩
  · rw [getMaxDim, projectionMatrix, hr]
    rfl
  · intro i
    cases maxDim with
    | none => simp [getVectors, projectionMatrix, hr]
    | some k => simp [getVectors, projectionMatrix, hr, pySlice]

/-- Witness for C6 at a concrete input: the kernel eigenvalue list `[-1]`
retains nothing under `allow_imaginary = False`, `get_max_dim` is `0`,
and the embedding of a one-object library is the empty vector. -/
theorem c6_witness :
    eigDim false (([((-1 : ℚ), fun _ : Fin 1 => (1 : ℚ))].map Prod.fst))
        = 0
      ∧ (getMaxDim id false [((-1 : ℚ), fun _ : Fin 1 => (1 : ℚ))] = 0
        ∧ ∀ i : Fin 1,
            getVectors id false [((-1 : ℚ), fun _ : Fin 1 => (1 : ℚ))]
              (Matrix.of fun _ _ => (7 : ℚ) : Matrix (Fin 1) (Fin 1) ℚ)
              none i = []) := by
  refine ⟨?_, c6_zero_dim id false [((-1 : ℚ), fun _ : Fin 1 => (1 : ℚ))]
    ?_ (Matrix.of fun _ _ => (7 : ℚ) : Matrix (Fin 1) (Fin 1) ℚ) none⟩ <;>
      decide

/-! ## `max_dim` truncation (claim C9)

The claim states that a negative `max_dim` is rejected as invalid.  The
source (`get_vectors`) only asserts `isinstance(max_dim, int)` — which a
negative integer satisfies — and then slices `vectors[:max_dim]`: a
negative value is accepted and, by Python slice semantics, drops `|max_dim|`
dimensions from the END instead of keeping the first `max_dim`. -/

/-- C9 counterexample: on the two-dimensional identity-kernel model (both
eigenvalues `1`, so `sqrt` is the identity on the values used), embedding
the single library row `[3, 5]` with `max_dim = -1` is not rejected: it
returns the width-1 vector `[3]`, the Python slice that drops the last
dimension. -/
theorem c9_counterexample :
    getVectors (fun x : ℚ => x) false
        [((1 : ℚ), ![1, 0]), ((1 : ℚ), ![0, 1])]
        (Matrix.of ![![(3 : ℚ), 5]]) (some (-1)) 0 = [3] := by
  simp only [getVectors, projectionMatrix, retainedPairs, sortedPairs,
    eigDim, pySlice, projectionRow, eigGE, List.insertionSort,
    List.orderedInsert, List.map_cons, List.map_nil, List.countP_cons,
    List.countP_nil]
  norm_num [Fin.sum_univ_two, List.take, projectionRow,
    Matrix.cons_val_zero, Matrix.cons_val_one, Matrix.head_cons]

/-- C9 as amended: `max_dim` must be an `int`; a non-negative `max_dim`
truncates the embedding to its first `max_dim` dimensions in the
significance order established by the eigen-pair sorting (a negative
`max_dim` is accepted and instead drops dimensions from the end, by
Python slice semantics). -/
theorem c9_amended_truncation (sqrtA : F → F) (ai : Bool)
    (l : List (F × (Fin n → F))) (ip : Matrix (Fin m) (Fin n) F)
    (k : ℤ) (hk : 0 ≤ k) (i : Fin m) :
    getVectors sqrtA ai l ip (some k) i =
      ((retainedPairs ai l).take k.toNat).map
        (fun pr => ∑ j, projectionRow sqrtA pr j * ip i j) := by
  simp only [getVectors, projectionMatrix, pySlice, if_pos hk,
    List.map_take, List.map_map]
  rfl

/-- Witness for the amended C9 at a concrete input: truncating the
two-dimensional embedding of `[3, 5]` to `max_dim = 1` keeps exactly the
first (most significant) dimension. -/
theorem c9_amended_witness :
    (0 : ℤ) ≤ 1
      ∧ getVectors (fun x : ℚ => x) false
          [((1 : ℚ), ![1, 0]), ((1 : ℚ), ![0, 1])]
          (Matrix.of ![![(3 : ℚ), 5]]) (some 1) 0 =
        ((retainedPairs false [((1 : ℚ), ![1, 0]), ((1 : ℚ), ![0, 1])]).take
            (1 : ℤ).toNat).map
          (fun pr => ∑ j, projectionRow (fun x : ℚ => x) pr j *
            (Matrix.of ![![(3 : ℚ), 5]]) 0 j) :=
  ⟨by decide, c9_amended_truncation (fun x : ℚ => x) false
    [((1 : ℚ), ![1, 0]), ((1 : ℚ), ![0, 1])]
    (Matrix.of ![![(3 : ℚ), 5]]) 1 (by decide) 0⟩

/-! ## Tanimoto computation (claims C2, C7) -/

/-- `dotList` on two rows of common length `d` is the matrix-product entry
`∑ k, a i k * b j k`. -/
theorem dotList_eq_sum :
    ∀ (d : ℕ) (xs ys : List F), xs.length = d → ys.length = d →
      dotList xs ys = ∑ k : Fin d, xs.getD k 0 * ys.getD k 0 := by
  intro d
  induction d with
  | zero =>
    intro xs ys hx hy
    rw [List.length_eq_zero] at hx
    subst hx
    simp [dotList]
  | succ d ih =>
    intro xs ys hx hy
    cases xs with
    | nil => simp at hx
    | cons x xs =>
      cases ys with
      | nil => simp at hy
      | cons y ys =>
        rw [Fin.sum_univ_succ]
        simp only [Fin.val_zero, List.getD_cons_zero, Fin.val_succ,
          List.getD_cons_succ]
        rw [← ih xs ys (by simpa using hx) (by simpa using hy)]
        simp [dotList]

/-- C2: for vector sets `a` (`p × d`) and `b` (`q × d`) with explicit
overlap sequences, `vector_tanimotos` returns the `p × q` matrix whose
`(i, j)` entry is `AB i j / (a_overlap i + b_overlap j - AB i j)` with
`AB = a * b.T`, except that a cell whose denominator is exactly zero is
set to `0` instead of an undefined value.  (Over the exact field carrier
no NaN or infinite entry exists, so the hypothesis of the claim holds by
construction; the invalid-value check is modeled in
`vector_tanimotos_checked`.) -/
theorem c2_vector_tanimotos (d : ℕ) (a : Fin p → List F)
    (b : Fin q → List F) (aOv : Fin p → F) (bOv : Fin q → F)
    (ha : ∀ i, (a i).length = d) (hb : ∀ j, (b j).length = d)
    (i : Fin p) (j : Fin q) :
    vector_tanimotos a b (some aOv) (some bOv) i j =
      if aOv i + bOv j - (∑ k : Fin d, (a i).getD k 0 * (b j).getD k 0)
          = 0 then 0
      else (∑ k : Fin d, (a i).getD k 0 * (b j).getD k 0) /
        (aOv i + bOv j -
          (∑ k : Fin d, (a i).getD k 0 * (b j).getD k 0)) := by
  rw [vector_tanimotos]
  simp only [Option.getD_some, Matrix.of_apply]
  rw [dotList_eq_sum d _ _ (ha i) (hb j)]

/-- Witness for C2 at a concrete input: one-dimensional vectors `[2]` and
`[3]` with overlaps `4` and `5` give `AB = 6`, denominator `3`, Tanimoto
`2`. -/
theorem c2_witness :
    ((∀ i : Fin 1, ([(2 : ℚ)] : List ℚ).length = 1)
      ∧ (∀ j : Fin 1, ([(3 : ℚ)] : List ℚ).length = 1))
      ∧ vector_tanimotos (fun _ : Fin 1 => [(2 : ℚ)])
          (fun _ : Fin 1 => [(3 : ℚ)]) (some fun _ => 4) (some fun _ => 5)
          0 0 =
        if (4 : ℚ) + 5 - (∑ k : Fin 1, ([(2 : ℚ)].getD k 0) *
            ([(3 : ℚ)].getD k 0)) = 0 then 0
        else (∑ k : Fin 1, ([(2 : ℚ)].getD k 0) * ([(3 : ℚ)].getD k 0)) /
          ((4 : ℚ) + 5 - (∑ k : Fin 1, ([(2 : ℚ)].getD k 0) *
            ([(3 : ℚ)].getD k 0))) := by
  refine ⟨⟨fun _ => rfl, fun _ => rfl⟩, ?_⟩
  exact c2_vector_tanimotos 1 (fun _ : Fin 1 => [(2 : ℚ)])
    (fun _ : Fin 1 => [(3 : ℚ)]) (fun _ => 4) (fun _ => 5)
    (fun _ => rfl) (fun _ => rfl) 0 0

/-- C7: `inner_product_from_tanimoto` (`IP = 2T / (1 + T)`) composed with
the unit-self-overlap Tanimoto relation `T' = IP / (1 + 1 - IP)` recovers
`T` exactly for every `T` in `(0, 1]`. -/
theorem c7_inverse_transform (t : Matrix (Fin m) (Fin k) F) (i : Fin m)
    (j : Fin k) (h0 : 0 < t i j) (h1 : t i j ≤ 1) :
    get_inner_products_from_tanimotos t i j /
      (1 + 1 - get_inner_products_from_tanimotos t i j) = t i j := by
  rw [get_inner_products_from_tanimotos]
  simp only [Matrix.of_apply]
  have hT : (1 : F) + t i j ≠ 0 := by positivity
  have hden : 1 + 1 - (2 * t i j) / (1 + t i j) = 2 / (1 + t i j) := by
    field_simp
    ring
  rw [hden, div_div_div_eq]
  rw [mul_comm ((2 : F) * t i j) (1 + t i j), mul_div_mul_left _ _ hT,
    mul_comm, mul_div_assoc, div_self (two_ne_zero), mul_one]

/-- Witness for C7 at a concrete input: `T = 1` lies in `(0, 1]` and the
round trip returns `1`. -/
theorem c7_witness :
    ((0 : ℚ) < (Matrix.of ![![(1 : ℚ)]]) 0 0
        ∧ (Matrix.of ![![(1 : ℚ)]]) 0 0 ≤ 1)
      ∧ get_inner_products_from_tanimotos (Matrix.of ![![(1 : ℚ)]]) 0 0 /
          (1 + 1 -
            get_inner_products_from_tanimotos (Matrix.of ![![(1 : ℚ)]]) 0 0)
            = (Matrix.of ![![(1 : ℚ)]]) 0 0 := by
  refine ⟨⟨?_, ?_⟩, c7_inverse_transform (Matrix.of ![![(1 : ℚ)]]) 0 0
    ?_ ?_⟩ <;> norm_num

/-! ## Kernel centering (claims C4, C10) -/

/-- Entrywise form of `_center_kernel_matrix`: subtract the column mean
and the row mean, add back the grand mean. -/
theorem center_kernel_matrix_apply (K : Matrix (Fin nn) (Fin nn) F)
    (i j : Fin nn) :
    center_kernel_matrix K i j =
      K i j - (∑ k2, K k2 j) / nn - (∑ k2, K i k2) / nn
        + (∑ k2, ∑ l2, K k2 l2) / (nn : F) ^ 2 := by
  have h1 : ∑ k2, (nn : F)⁻¹ * K k2 j = (∑ k2, K k2 j) / (nn : F) := by
    rw [← Finset.mul_sum, inv_mul_eq_div]
  have h2 : ∑ k2, K i k2 * (nn : F)⁻¹ = (∑ k2, K i k2) / (nn : F) := by
    rw [← Finset.sum_mul, div_eq_mul_inv]
  have h3 : ∑ l2, (∑ k2, (nn : F)⁻¹ * K k2 l2) * (nn : F)⁻¹
      = (∑ k2, ∑ l2, K k2 l2) / (nn : F) ^ 2 := by
    have hin : ∀ l2 : Fin nn,
        (∑ k2, (nn : F)⁻¹ * K k2 l2) = (nn : F)⁻¹ * ∑ k2, K k2 l2 :=
      fun l2 => (Finset.mul_sum _ _ _).symm
    calc ∑ l2, (∑ k2, (nn : F)⁻¹ * K k2 l2) * (nn : F)⁻¹
        = ∑ l2, ((nn : F)⁻¹ * ∑ k2, K k2 l2) * (nn : F)⁻¹ := by
          simp only [hin]
      _ = ((nn : F)⁻¹ * ∑ l2, ∑ k2, K k2 l2) * (nn : F)⁻¹ := by
          rw [← Finset.sum_mul, ← Finset.mul_sum]
      _ = (∑ k2, ∑ l2, K k2 l2) / (nn : F) ^ 2 := by
          rw [Finset.sum_comm, div_eq_mul_inv, sq, mul_inv]
          ring
  simp only [center_kernel_matrix, Matrix.add_apply, Matrix.sub_apply,
    Matrix.mul_apply, Matrix.of_apply]
  rw [h1, h2, h3]

/-- C4: with `center = True` the kernel used thereafter is
`K - J*K - K*J + J*K*J`, `J` the matrix with every entry `1/n`; stated
both as the bilinear matrix identity and entrywise.  The model is a pure
function, so the input `K` is not mutated (the source likewise builds a
new `np.matrix` expression from `m`). -/
theorem c4_centering_formula (K : Matrix (Fin nn) (Fin nn) F) :
    center_kernel_matrix K =
        K - (Matrix.of fun _ _ => (nn : F)⁻¹) * K
          - K * (Matrix.of fun _ _ => (nn : F)⁻¹)
          + (Matrix.of fun _ _ => (nn : F)⁻¹) * K *
              (Matrix.of fun _ _ => (nn : F)⁻¹)
      ∧ ∀ i j, center_kernel_matrix K i j =
          K i j - (∑ k2, K k2 j) / nn - (∑ k2, K i k2) / nn
            + (∑ k2, ∑ l2, K k2 l2) / (nn : F) ^ 2 :=
  ⟨rfl, center_kernel_matrix_apply K⟩

/-- C10: every row sum and every column sum of the centered kernel matrix
is exactly zero. -/
theorem c10_centered_sums_zero (K : Matrix (Fin nn) (Fin nn) F) :
    (∀ i, ∑ j, center_kernel_matrix K i j = 0)
      ∧ (∀ j, ∑ i, center_kernel_matrix K i j = 0) := by
  constructor
  · intro i
    have hnn : (nn : F) ≠ 0 := Nat.cast_ne_zero.mpr i.pos.ne'
    simp only [center_kernel_matrix_apply, Finset.sum_add_distrib,
      Finset.sum_sub_distrib, ← Finset.sum_div, Finset.sum_const,
      Finset.card_univ, Fintype.card_fin, nsmul_eq_mul]
    rw [Finset.sum_comm]
    field_simp
    ring
  · intro j
    have hnn : (nn : F) ≠ 0 := Nat.cast_ne_zero.mpr j.pos.ne'
    simp only [center_kernel_matrix_apply, Finset.sum_add_distrib,
      Finset.sum_sub_distrib, ← Finset.sum_div, Finset.sum_const,
      Finset.card_univ, Fintype.card_fin, nsmul_eq_mul]
    rw [Finset.sum_comm]
    field_simp
    ring

/-! ## NaN/infinity validation (claim C8) -/

/-- C8: `vector_tanimotos` fails with `NumericalError` exactly when some
element of the cross inner-product matrix `AB`, of the broadcast
`a_overlap` matrix, or of the broadcast `b_overlap` matrix is NaN or
infinite (an entry of a `p × q` broadcast matrix exists only when both
index sets are inhabited, hence the paired quantifiers).  The right-hand
side never mentions the Tanimoto denominator: the checks run before the
masked divide, so a zero denominator alone never raises. -/
theorem c8_numerical_error_iff (a : Fin p → List (FloatVal F))
    (b : Fin q → List (FloatVal F)) (aOv : Fin p → FloatVal F)
    (bOv : Fin q → FloatVal F) :
    vector_tanimotos_checked a b aOv bOv =
        Except.error NumericalError.numericalError ↔
      ((∃ (i : Fin p) (j : Fin q), ¬ (dotFV (a i) (b j)).isFinite = true)
        ∨ (∃ (i : Fin p) (_j : Fin q), ¬ (aOv i).isFinite = true)
        ∨ (∃ (_i : Fin p) (j : Fin q), ¬ (bOv j).isFinite = true)) := by
  rw [vector_tanimotos_checked]
  simp only [Matrix.of_apply]
  by_cases H1 : ∀ (i : Fin p) (j : Fin q), (dotFV (a i) (b j)).isFinite = true
  · by_cases H2 : ∀ (i : Fin p) (_j : Fin q), (aOv i).isFinite = true
    · by_cases H3 : ∀ (_i : Fin p) (j : Fin q), (bOv j).isFinite = true
      · rw [if_neg (not_not_intro H1), if_neg (not_not_intro H2),
          if_neg (not_not_intro H3)]
        refine iff_of_false (by simp) ?_
        rintro (⟨i, j, hij⟩ | ⟨i, j, hij⟩ | ⟨i, j, hij⟩)
        · exact hij (H1 i j)
        · exact hij (H2 i j)
        · exact hij (H3 i j)
      · rw [if_neg (not_not_intro H1), if_neg (not_not_intro H2), if_pos H3]
        push_neg at H3
        exact iff_of_true rfl (Or.inr (Or.inr H3))
    · rw [if_neg (not_not_intro H1), if_pos H2]
      push_neg at H2
      exact iff_of_true rfl (Or.inr (Or.inl H2))
  · rw [if_pos H1]
    push_neg at H1
    exact iff_of_true rfl (Or.inl H1)

/-! ## Concrete scenario (claim C3)

`K_bb = [[1, 0.5], [0.5, 1]]`, `allow_imaginary = False`, `center = False`.
`np.linalg.eigh` returns the eigenvalues ascending, here `[1/2, 3/2]`,
paired with orthonormal eigenvector columns; the theorem quantifies over
any such eigh output (the pipeline result is independent of the
eigenvectors' sign freedom). -/

/-- `dotList` on concrete two-element rows. -/
theorem dotList_pair (x1 x2 y1 y2 : F) :
    dotList [x1, x2] [y1, y2] = x1 * y1 + x2 * y2 := by
  simp [dotList]

/-- C3: embedding `ip_rows = K_bb` for `K_bb = [[1, 1/2], [1/2, 1]]`
(standard mode, no centering) and taking the all-vs-all Tanimoto matrix
with default self-overlaps yields exactly `[[1, 1/3], [1/3, 1]]`. -/
theorem c3_concrete_scenario (v1 v2 : Fin 2 → ℝ)
    (heig1 : ∀ i, (∑ j, (Matrix.of ![![(1 : ℝ), 1/2], ![1/2, 1]]) i j * v1 j)
        = (1/2) * v1 i)
    (heig2 : ∀ i, (∑ j, (Matrix.of ![![(1 : ℝ), 1/2], ![1/2, 1]]) i j * v2 j)
        = (3/2) * v2 i)
    (hn1 : v1 0 ^ 2 + v1 1 ^ 2 = 1) (hn2 : v2 0 ^ 2 + v2 1 ^ 2 = 1) :
    get_tanimotos Real.sqrt false [((1/2 : ℝ), v1), ((3/2 : ℝ), v2)]
        (Matrix.of ![![(1 : ℝ), 1/2], ![1/2, 1]]) none none =
      Matrix.of ![![(1 : ℝ), 1/3], ![1/3, 1]] := by
  have e10 := heig1 0
  have e20 := heig2 0
  simp only [Fin.sum_univ_two, Matrix.of_apply, Matrix.cons_val',
    Matrix.cons_val_zero, Matrix.cons_val_one, Matrix.head_cons,
    Matrix.empty_val', Matrix.cons_val_fin_one] at e10 e20
  have ha : v1 1 = -v1 0 := by linarith
  have hb : v2 1 = v2 0 := by linarith
  have ha2 : v1 0 ^ 2 = 1 / 2 := by
    rw [ha, neg_sq] at hn1
    linarith
  have hb2 : v2 0 ^ 2 = 1 / 2 := by
    rw [hb] at hn2
    linarith
  have hs : ((Real.sqrt |(3 : ℝ)/2|)⁻¹) ^ 2 = 2 / 3 := by
    rw [abs_of_pos (by norm_num : (0 : ℝ) < 3/2), inv_pow,
      Real.sq_sqrt (by norm_num : (0 : ℝ) ≤ 3/2)]
    norm_num
  have ht : ((Real.sqrt |(1 : ℝ)/2|)⁻¹) ^ 2 = 2 := by
    rw [abs_of_pos (by norm_num : (0 : ℝ) < 1/2), inv_pow,
      Real.sq_sqrt (by norm_num : (0 : ℝ) ≤ 1/2)]
    norm_num
  have hret : retainedPairs false [((1/2 : ℝ), v1), ((3/2 : ℝ), v2)] =
      [((3/2 : ℝ), v2), ((1/2 : ℝ), v1)] := by
    rw [retainedPairs_false_eq]
    norm_num [List.insertionSort, List.orderedInsert, eigGE]
  have hv0 : getVectors Real.sqrt false [((1/2 : ℝ), v1), ((3/2 : ℝ), v2)]
      (Matrix.of ![![(1 : ℝ), 1/2], ![1/2, 1]]) none 0 =
      [(Real.sqrt |(3 : ℝ)/2|)⁻¹ * (v2 0 * (3/2)),
        (Real.sqrt |(1 : ℝ)/2|)⁻¹ * (v1 0 * (1/2))] := by
    simp only [getVectors, projectionMatrix, hret, projectionRow,
      List.map_cons, List.map_nil, Fin.sum_univ_two, Matrix.of_apply,
      Matrix.cons_val', Matrix.cons_val_zero, Matrix.cons_val_one,
      Matrix.head_cons, Matrix.empty_val', Matrix.cons_val_fin_one,
      Matrix.head_fin_const, List.cons.injEq, and_true]
    rw [ha, hb]
    exact ⟨by ring, by ring⟩
  have hv1 : getVectors Real.sqrt false [((1/2 : ℝ), v1), ((3/2 : ℝ), v2)]
      (Matrix.of ![![(1 : ℝ), 1/2], ![1/2, 1]]) none 1 =
      [(Real.sqrt |(3 : ℝ)/2|)⁻¹ * (v2 0 * (3/2)),
        (Real.sqrt |(1 : ℝ)/2|)⁻¹ * (v1 0 * (-(1/2)))] := by
    simp only [getVectors, projectionMatrix, hret, projectionRow,
      List.map_cons, List.map_nil, Fin.sum_univ_two, Matrix.of_apply,
      Matrix.cons_val', Matrix.cons_val_zero, Matrix.cons_val_one,
      Matrix.head_cons, Matrix.empty_val', Matrix.cons_val_fin_one,
      Matrix.head_fin_const, List.cons.injEq, and_true]
    rw [ha, hb]
    exact ⟨by ring, by ring⟩
  have hAB00 : dotList
      [(Real.sqrt |(3 : ℝ)/2|)⁻¹ * (v2 0 * (3/2)),
        (Real.sqrt |(1 : ℝ)/2|)⁻¹ * (v1 0 * (1/2))]
      [(Real.sqrt |(3 : ℝ)/2|)⁻¹ * (v2 0 * (3/2)),
        (Real.sqrt |(1 : ℝ)/2|)⁻¹ * (v1 0 * (1/2))] = 1 := by
    rw [dotList_pair]
    linear_combination (9/4 * v2 0 ^ 2) * hs + (3/2) * hb2
      + (1/4 * v1 0 ^ 2) * ht + (1/2) * ha2
  have hAB11 : dotList
      [(Real.sqrt |(3 : ℝ)/2|)⁻¹ * (v2 0 * (3/2)),
        (Real.sqrt |(1 : ℝ)/2|)⁻¹ * (v1 0 * (-(1/2)))]
      [(Real.sqrt |(3 : ℝ)/2|)⁻¹ * (v2 0 * (3/2)),
        (Real.sqrt |(1 : ℝ)/2|)⁻¹ * (v1 0 * (-(1/2)))] = 1 := by
    rw [dotList_pair]
    linear_combination (9/4 * v2 0 ^ 2) * hs + (3/2) * hb2
      + (1/4 * v1 0 ^ 2) * ht + (1/2) * ha2
  have hAB01 : dotList
      [(Real.sqrt |(3 : ℝ)/2|)⁻¹ * (v2 0 * (3/2)),
        (Real.sqrt |(1 : ℝ)/2|)⁻¹ * (v1 0 * (1/2))]
      [(Real.sqrt |(3 : ℝ)/2|)⁻¹ * (v2 0 * (3/2)),
        (Real.sqrt |(1 : ℝ)/2|)⁻¹ * (v1 0 * (-(1/2)))] = 1/2 := by
    rw [dotList_pair]
    linear_combination (9/4 * v2 0 ^ 2) * hs + (3/2) * hb2
      - (1/4 * v1 0 ^ 2) * ht - (1/2) * ha2
  have hAB10 : dotList
      [(Real.sqrt |(3 : ℝ)/2|)⁻¹ * (v2 0 * (3/2)),
        (Real.sqrt |(1 : ℝ)/2|)⁻¹ * (v1 0 * (-(1/2)))]
      [(Real.sqrt |(3 : ℝ)/2|)⁻¹ * (v2 0 * (3/2)),
        (Real.sqrt |(1 : ℝ)/2|)⁻¹ * (v1 0 * (1/2))] = 1/2 := by
    rw [dotList_pair]
    linear_combination (9/4 * v2 0 ^ 2) * hs + (3/2) * hb2
      - (1/4 * v1 0 ^ 2) * ht - (1/2) * ha2
  ext i j
  simp only [get_tanimotos, vector_tanimotos, Option.getD_none,
    squaredMagnitude, Matrix.of_apply]
  fin_cases i <;> fin_cases j <;>
    simp only [Fin.mk_zero, Fin.mk_one, Fin.isValue, hv0, hv1, hAB00,
      hAB01, hAB10, hAB11, Matrix.cons_val', Matrix.cons_val_zero,
      Matrix.cons_val_one, Matrix.head_cons, Matrix.empty_val',
      Matrix.cons_val_fin_one] <;>
    norm_num

/-- Witness for C3 at a concrete eigh output: the orthonormal eigenvectors
`(1/√2, -1/√2)` (eigenvalue `1/2`) and `(1/√2, 1/√2)` (eigenvalue `3/2`)
of `K_bb` satisfy the hypotheses, and the resulting Tanimoto matrix is
`[[1, 1/3], [1/3, 1]]`. -/
theorem c3_witness :
    (∀ i, (∑ j, (Matrix.of ![![(1 : ℝ), 1/2], ![1/2, 1]]) i j *
          (![(Real.sqrt 2)⁻¹, -(Real.sqrt 2)⁻¹] : Fin 2 → ℝ) j)
        = (1/2) * (![(Real.sqrt 2)⁻¹, -(Real.sqrt 2)⁻¹] : Fin 2 → ℝ) i)
    ∧ (∀ i, (∑ j, (Matrix.of ![![(1 : ℝ), 1/2], ![1/2, 1]]) i j *
          (![(Real.sqrt 2)⁻¹, (Real.sqrt 2)⁻¹] : Fin 2 → ℝ) j)
        = (3/2) * (![(Real.sqrt 2)⁻¹, (Real.sqrt 2)⁻¹] : Fin 2 → ℝ) i)
    ∧ ((![(Real.sqrt 2)⁻¹, -(Real.sqrt 2)⁻¹] : Fin 2 → ℝ) 0 ^ 2
        + (![(Real.sqrt 2)⁻¹, -(Real.sqrt 2)⁻¹] : Fin 2 → ℝ) 1 ^ 2 = 1)
    ∧ ((![(Real.sqrt 2)⁻¹, (Real.sqrt 2)⁻¹] : Fin 2 → ℝ) 0 ^ 2
        + (![(Real.sqrt 2)⁻¹, (Real.sqrt 2)⁻¹] : Fin 2 → ℝ) 1 ^ 2 = 1)
    ∧ get_tanimotos Real.sqrt false
        [((1/2 : ℝ), ![(Real.sqrt 2)⁻¹, -(Real.sqrt 2)⁻¹]),
          ((3/2 : ℝ), ![(Real.sqrt 2)⁻¹, (Real.sqrt 2)⁻¹])]
        (Matrix.of ![![(1 : ℝ), 1/2], ![1/2, 1]]) none none =
      Matrix.of ![![(1 : ℝ), 1/3], ![1/3, 1]] := by
  have hsq : (Real.sqrt 2) ^ 2 = 2 := Real.sq_sqrt (by norm_num)
  have h1 : ∀ i, (∑ j, (Matrix.of ![![(1 : ℝ), 1/2], ![1/2, 1]]) i j *
        (![(Real.sqrt 2)⁻¹, -(Real.sqrt 2)⁻¹] : Fin 2 → ℝ) j)
      = (1/2) * (![(Real.sqrt 2)⁻¹, -(Real.sqrt 2)⁻¹] : Fin 2 → ℝ) i := by
    intro i
    fin_cases i <;>
      simp only [Fin.mk_zero, Fin.mk_one, Fin.isValue, Fin.sum_univ_two,
        Matrix.of_apply, Matrix.cons_val', Matrix.cons_val_zero,
        Matrix.cons_val_one, Matrix.head_cons, Matrix.empty_val',
        Matrix.cons_val_fin_one, Matrix.head_fin_const] <;>
      ring
  have h2 : ∀ i, (∑ j, (Matrix.of ![![(1 : ℝ), 1/2], ![1/2, 1]]) i j *
        (![(Real.sqrt 2)⁻¹, (Real.sqrt 2)⁻¹] : Fin 2 → ℝ) j)
      = (3/2) * (![(Real.sqrt 2)⁻¹, (Real.sqrt 2)⁻¹] : Fin 2 → ℝ) i := by
    intro i
    fin_cases i <;>
      simp only [Fin.mk_zero, Fin.mk_one, Fin.isValue, Fin.sum_univ_two,
        Matrix.of_apply, Matrix.cons_val', Matrix.cons_val_zero,
        Matrix.cons_val_one, Matrix.head_cons, Matrix.empty_val',
        Matrix.cons_val_fin_one, Matrix.head_fin_const] <;>
      ring
  have hn1 : (![(Real.sqrt 2)⁻¹, -(Real.sqrt 2)⁻¹] : Fin 2 → ℝ) 0 ^ 2
      + (![(Real.sqrt 2)⁻¹, -(Real.sqrt 2)⁻¹] : Fin 2 → ℝ) 1 ^ 2 = 1 := by
    simp only [Matrix.cons_val_zero, Matrix.cons_val_one, Matrix.head_cons,
      neg_sq, inv_pow, hsq]
    norm_num
  have hn2 : (![(Real.sqrt 2)⁻¹, (Real.sqrt 2)⁻¹] : Fin 2 → ℝ) 0 ^ 2
      + (![(Real.sqrt 2)⁻¹, (Real.sqrt 2)⁻¹] : Fin 2 → ℝ) 1 ^ 2 = 1 := by
    simp only [Matrix.cons_val_zero, Matrix.cons_val_one, Matrix.head_cons,
      inv_pow, hsq]
    norm_num
  exact ⟨h1, h2, hn1, hn2, c3_concrete_scenario _ _ h1 h2 hn1 hn2⟩

end Scissors
